import Mathlib

/-
Verification of the filename label codec and substring miner of the
tractodata repository (tractodata/io/utils.py, tractodata/io/fetcher.py).

Strings are modelled as `List Char`; a Python string literal `"s"` becomes
`"s".data`.  The five fixed regular expressions built in utils.py are
embedded as explicit position-by-position matchers (`...MatchAt`), and
`re.search` as the leftmost-position search over them (`reSearch`): at every
start position, taken in increasing order, the pattern's branches are tried
in their written order, exactly as Python's regex engine does for these
patterns.
-/

namespace Tractodata

/-- Module-level marker constant `bundle_label = "subset"` of utils.py. -/
def bundle_label : List Char := "subset".data

/-- Module-level constant `discrete_segmentation_label = "dseg"`. -/
def discrete_segmentation_label : List Char := "dseg".data

/-- Module-level constant `probabilistic_segmentation_label = "probseg"`. -/
def probabilistic_segmentation_label : List Char := "probseg".data

/-- Module-level constant `endpoint_label = "part"`. -/
def endpoint_label : List Char := "part".data

/-- Module-level constant `hemisphere_label = "hemi"`. -/
def hemisphere_label : List Char := "hemi".data

/-- Module-level constant `surface_label = "surf"`. -/
def surface_label : List Char := "surf".data

/-- Module-level constant `general_label = "label"`. -/
def general_label : List Char := "label".data

/-- Module-level constant `label_value_separator = "-"`. -/
def label_value_separator : List Char := "-".data

/-- Module-level constant `label_value_alt_separator = "."`. -/
def label_value_alt_separator : List Char := ".".data

/-- The `Label` enumeration of utils.py.  The source enumeration has exactly
these five members (`BUNDLE`, `ENDPOINT`, `HEMISPHERE`, `TISSUE`,
`SURFACE`). -/
inductive Label where
  | BUNDLE
  | ENDPOINT
  | HEMISPHERE
  | TISSUE
  | SURFACE
  deriving DecidableEq, Repr

/-- The `Endpoint` enumeration of utils.py. -/
inductive Endpoint where
  | HEAD
  | TAIL
  deriving DecidableEq, Repr

/-- Values of the `Endpoint` members (`Endpoint.HEAD.value` etc.). -/
def Endpoint.value : Endpoint → List Char
  | .HEAD => "head".data
  | .TAIL => "tail".data

/-- The `Hemisphere` enumeration of utils.py. -/
inductive Hemisphere where
  | LEFT
  | RIGHT
  deriving DecidableEq, Repr

/-- Values of the `Hemisphere` members. -/
def Hemisphere.value : Hemisphere → List Char
  | .LEFT => "L".data
  | .RIGHT => "R".data

/-- The `Tissue` enumeration of utils.py. -/
inductive Tissue where
  | CSF
  | GM
  | WM
  deriving DecidableEq, Repr

/-- Values of the `Tissue` members. -/
def Tissue.value : Tissue → List Char
  | .CSF => "CSF".data
  | .GM => "GM".data
  | .WM => "WM".data

/-- The `Surface` enumeration of utils.py. -/
inductive Surface where
  | PIAL
  | WM
  deriving DecidableEq, Repr

/-- Values of the `Surface` members. -/
def Surface.value : Surface → List Char
  | .PIAL => "pial".data
  | .WM => "wm".data

/-- A value passed as the `label` argument of `get_label_value_from_filename`
or `filter_filenames_on_value`.  Python is dynamically typed: a caller may
pass a value that is not a member of the `Label` enumeration (the repository's
own tests do, with `Label.DTI` and `Label.EXCLUDEINCLUDE`, names absent from
the enumeration); such a value is carried as `unknown` together with its
textual representation, and every equality test of the dispatch chain fails
on it. -/
inductive LabelArg where
  | known : Label → LabelArg
  | unknown : String → LabelArg
  deriving DecidableEq, Repr

/-- The `LabelError` exception of utils.py, raised with the unknown-label
message built by `_unknown_label_msg`; the offending label's textual
representation is carried. -/
structure LabelError where
  label : String
  deriving DecidableEq, Repr

/-- Matching the bundle regex `(?<=_subset-)(.*?)(?=_)` (built by
`_build_bundle_regex`) at start position `p` of `root`: the lookbehind
requires the text before `p` to end with `_subset-`; the lazy `(.*?)` then
consumes the shortest run of characters (each not a newline, since `.` does
not match a newline) until the lookahead sees a `_`.  The whole match
(`group(0)`) is that run. -/
def bundleMatchAt (root : List Char) (p : Nat) : Option (List Char) :=
  if ("_".data ++ bundle_label ++ label_value_separator).isSuffixOf (root.take p) then
    if ((root.drop p).takeWhile (fun c => c ≠ '_')).length < (root.drop p).length ∧
        ((root.drop p).takeWhile (fun c => c ≠ '_')).all (fun c => c ≠ '\n') = true then
      some ((root.drop p).takeWhile (fun c => c ≠ '_'))
    else none
  else none

/-- Matching the endpoint regex `(?<=_part-)(head|tail)(?=_)` (built by
`_build_endpoint_regex`) at start position `p`: lookbehind `_part-`, then the
literal `head` or `tail` (tried in that order), then lookahead `_`. -/
def endpointMatchAt (root : List Char) (p : Nat) : Option (List Char) :=
  if ("_".data ++ endpoint_label ++ label_value_separator).isSuffixOf (root.take p) then
    if (Endpoint.HEAD.value ++ "_".data).isPrefixOf (root.drop p) then some Endpoint.HEAD.value
    else if (Endpoint.TAIL.value ++ "_".data).isPrefixOf (root.drop p) then some Endpoint.TAIL.value
    else none
  else none

/-- Matching the hemisphere regex `(?<=_hemi-)[LR]{1}(?=_)` (built by
`_build_hemisphere_regex`) at start position `p`: lookbehind `_hemi-`, then
exactly one character of the class `[LR]`, then lookahead `_`. -/
def hemisphereMatchAt (root : List Char) (p : Nat) : Option (List Char) :=
  if ("_".data ++ hemisphere_label ++ label_value_separator).isSuffixOf (root.take p) then
    if (Hemisphere.LEFT.value ++ "_".data).isPrefixOf (root.drop p) then some Hemisphere.LEFT.value
    else if (Hemisphere.RIGHT.value ++ "_".data).isPrefixOf (root.drop p) then some Hemisphere.RIGHT.value
    else none
  else none

/-- Lookahead `(?=.surf)` of the surface regex: one arbitrary character (the
`.` in the pattern is an unescaped "any character except newline"), followed
by the literal `surf`. -/
def surfaceWmLookahead (l : List Char) : Bool :=
  match l with
  | c :: rest => decide (c ≠ '\n') && surface_label.isPrefixOf rest
  | [] => false

/-- Matching the surface regex `(?<=_)pial|wm(?=.surf)` (built by
`_build_surface_regex`) at start position `p`.  Alternation has the lowest
precedence in a regex, so this pattern is the alternation of `(?<=_)pial`
(the literal `pial` preceded by `_`, with no condition on what follows) and
`wm(?=.surf)` (the literal `wm` followed by any character and `surf`, with no
condition on what precedes); the branches are tried in that order. -/
def surfaceMatchAt (root : List Char) (p : Nat) : Option (List Char) :=
  if ("_".data).isSuffixOf (root.take p) && (Surface.PIAL.value).isPrefixOf (root.drop p) then
    some Surface.PIAL.value
  else if (Surface.WM.value).isPrefixOf (root.drop p) &&
      surfaceWmLookahead ((root.drop p).drop (Surface.WM.value).length) then
    some Surface.WM.value
  else none

/-- Matching the tissue regex `(?<=_label-)CSF|GM|WM(?=_(dseg|probseg))`
(built by `_build_tissue_segmentation_regex`) at start position `p`.  By
alternation precedence this pattern is the alternation of `(?<=_label-)CSF`
(`CSF` preceded by `_label-`, nothing required after), the bare literal `GM`
(no condition at all), and `WM(?=_(dseg|probseg))` (`WM` followed by `_dseg`
or `_probseg`, nothing required before); branches tried in that order. -/
def tissueMatchAt (root : List Char) (p : Nat) : Option (List Char) :=
  if ("_".data ++ general_label ++ label_value_separator).isSuffixOf (root.take p) &&
      (Tissue.CSF.value).isPrefixOf (root.drop p) then
    some Tissue.CSF.value
  else if (Tissue.GM.value).isPrefixOf (root.drop p) then
    some Tissue.GM.value
  else if (Tissue.WM.value).isPrefixOf (root.drop p) &&
      (("_".data ++ discrete_segmentation_label).isPrefixOf
          ((root.drop p).drop (Tissue.WM.value).length) ||
        ("_".data ++ probabilistic_segmentation_label).isPrefixOf
          ((root.drop p).drop (Tissue.WM.value).length)) then
    some Tissue.WM.value
  else none

/-- Python's `re.search` specialised to the five patterns above: try every
start position of the root from 0 to `root.length` inclusive, leftmost
first, and return the first position's match. -/
def reSearch (matchAt : List Char → Nat → Option (List Char)) (root : List Char) :
    Option (List Char) :=
  (List.range (root.length + 1)).findSome? (matchAt root)

/-- Python's `os.path.basename`: the part of the path after the last `/`. -/
def basename (fname : List Char) : List Char :=
  (fname.reverse.takeWhile (fun c => c ≠ '/')).reverse

/-- Root part of Python's `os.path.splitext`, as called in
`_get_filename_root` (where its argument is already a basename, hence free of
`/`): the extension starts at the last dot, but only when some character
before that dot is not itself a dot (CPython's guard for names such as
`.bashrc`); otherwise the name is returned unchanged. -/
def splitextRoot (b : List Char) : List Char :=
  let extLen := (b.reverse.takeWhile (fun c => c ≠ '.')).length
  if extLen = b.length then b
  else if (b.take (b.length - extLen - 1)).all (fun c => c = '.') = true then b
  else b.take (b.length - extLen - 1)

/-- The function `_get_filename_root` of utils.py: with `has_period` the root
is `os.path.splitext(os.path.basename(fname))[0]`; otherwise it is
`os.path.basename(fname).split(".")[0]`, i.e. the basename text before its
first dot. -/
def _get_filename_root (fname : List Char) (has_period : Bool) : List Char :=
  if has_period then splitextRoot (basename fname)
  else (basename fname).takeWhile (fun c => c ≠ '.')

/-- The function `get_label_value_from_filename` of utils.py: compute the
filename root, dispatch on the label through the chain of equality tests
(building the corresponding regex), and `re.search` it on the root; a value
outside the `Label` enumeration falls through to the `else` branch, which
raises `LabelError`.  `None` from `re.search` becomes the `none` result. -/
def get_label_value_from_filename (fname : List Char) (label : LabelArg)
    (has_period : Bool) : Except LabelError (Option (List Char)) :=
  let fname_root := _get_filename_root fname has_period
  match label with
  | .known .BUNDLE => .ok (reSearch bundleMatchAt fname_root)
  | .known .ENDPOINT => .ok (reSearch endpointMatchAt fname_root)
  | .known .HEMISPHERE => .ok (reSearch hemisphereMatchAt fname_root)
  | .known .SURFACE => .ok (reSearch surfaceMatchAt fname_root)
  | .known .TISSUE => .ok (reSearch tissueMatchAt fname_root)
  | .unknown s => .error ⟨s⟩

/-- The function `_build_label_value_pair` of utils.py: `label-value` in the
standard form, `value.label` in the alternative form. -/
def _build_label_value_pair (label value : List Char) (use_alt : Bool) : List Char :=
  if !use_alt then label ++ label_value_separator ++ value
  else value ++ label_value_alt_separator ++ label

/-- Python's substring test `x in item` on strings. -/
def str_contains (item x : List Char) : Bool :=
  (List.range (item.length + 1)).any (fun i => x.isPrefixOf (item.drop i))

/-- The function `filter_list_on_list` of utils.py: keep the elements of the
primary list containing (as a substring) any element of the secondary
list. -/
def filter_list_on_list (primary_list secondary_list : List (List Char)) :
    List (List Char) :=
  primary_list.filter (fun item => secondary_list.any (fun x => str_contains item x))

/-- Dispatch of `filter_filenames_on_value` for a single requested value: the
chain of equality tests selecting the label word of the `label-value` token
(alternative `value.label` form for the surface label), with the final `else`
branch raising `LabelError` for a value outside the `Label` enumeration. -/
def labelValuePairFor (label : LabelArg) (v : List Char) : Except LabelError (List Char) :=
  match label with
  | .known .BUNDLE => .ok (_build_label_value_pair bundle_label v false)
  | .known .ENDPOINT => .ok (_build_label_value_pair endpoint_label v false)
  | .known .HEMISPHERE => .ok (_build_label_value_pair hemisphere_label v false)
  | .known .SURFACE => .ok (_build_label_value_pair surface_label v true)
  | .known .TISSUE => .ok (_build_label_value_pair general_label v false)
  | .unknown s => .error ⟨s⟩

/-- The function `filter_filenames_on_value` of utils.py: for each requested
value in the given order, build the label-value token and extend the result
with the input filenames containing it; the dispatch raises `LabelError` on a
label outside the enumeration (note that with an empty `value` list the loop
body never runs, so no error is raised even then). -/
def filter_filenames_on_value (fnames : List (List Char)) (label : LabelArg)
    (value : List (List Char)) : Except LabelError (List (List Char)) :=
  match value with
  | [] => .ok []
  | v :: vs =>
    match labelValuePairFor label v with
    | .error e => .error e
    | .ok label_value =>
      match filter_filenames_on_value fnames label vs with
      | .error e => .error e
      | .ok rest => .ok (filter_list_on_list fnames [label_value] ++ rest)

/-- Token built by `filter_filenames_on_value` for a member of the `Label`
enumeration: the label word joined to the value by `-` (`value.label`
alternative form for the surface label), exactly as the dispatch chain of
the source selects it. -/
def tokenFor (label : Label) (v : List Char) : List Char :=
  match label with
  | .BUNDLE => _build_label_value_pair bundle_label v false
  | .ENDPOINT => _build_label_value_pair endpoint_label v false
  | .HEMISPHERE => _build_label_value_pair hemisphere_label v false
  | .SURFACE => _build_label_value_pair surface_label v true
  | .TISSUE => _build_label_value_pair general_label v false

/-- Module-level constant `key_separator = ","` of fetcher.py. -/
def key_separator : List Char := ",".data

/-- The function `_build_bundle_key` of fetcher.py.  `hemisphere=None` is
modelled as `none`; Python's truthiness test `if hemisphere:` is false both
for `None` and for the empty string, hence the emptiness test on the carried
value. -/
def _build_bundle_key (bundle_name : List Char) (hemisphere : Option (List Char)) :
    List Char :=
  match hemisphere with
  | some h => if h ≠ [] then bundle_name ++ key_separator ++ h else bundle_name
  | none => bundle_name

/-- Modelled from the spec: the "manual decomposition" of a bundle key at the
`,` separator (spec, Testable properties, round-trip key building; the
decomposition itself appears in no source function): the text before the
first separator is the bundle name, the text after it the hemisphere, absent
when no separator occurs. -/
def decomposeBundleKey (key : List Char) : List Char × Option (List Char) :=
  if key.any (fun c => c = ',') then
    (key.takeWhile (fun c => c ≠ ','), some ((key.dropWhile (fun c => c ≠ ',')).drop 1))
  else (key, none)

/-- The function `is_subseq` of utils.py: contiguous-substring containment,
written exactly as the source's sliding-window scan (`seq[i : i + n]` for `i`
in `range(len(seq) + 1 - n)`), with the early `False` for a candidate longer
than the sequence. -/
def is_subseq (possible_subseq seq : List Char) : Bool :=
  if seq.length < possible_subseq.length then false
  else (List.range (seq.length + 1 - possible_subseq.length)).any
    (fun i => (seq.drop i).take possible_subseq.length == possible_subseq)

/-- The function `is_subseq_of_any` of utils.py: `False` when both the data
and the candidate are empty (the source's explicit degenerate case),
otherwise containment of the candidate in every data element. -/
def is_subseq_of_any (find : List Char) (data : List (List Char)) : Bool :=
  if data.length < 1 ∧ find.length < 1 then false
  else data.all (fun d => is_subseq find d)

/-- Containment of a candidate substring in every element of a string
collection (the property that `is_subseq_of_any` decides away from its
degenerate guard). -/
def commonSub (data : List (List Char)) (x : List Char) : Prop :=
  ∀ d ∈ data, x <:+: d

/-- Maximality record of the outer loop of `get_longest_common_subseq` after
the start offsets below `k` have been processed: no slice of `data[0]`
beginning at a processed offset and common to the whole collection is longer
than the record. -/
def lcsMax (d0 : List Char) (rest : List (List Char)) (k : Nat) (substr : List Char) :
    Prop :=
  ∀ i j, i < k → i + j ≤ d0.length →
    commonSub (d0 :: rest) ((d0.drop i).take j) → j ≤ substr.length

/-- Maximality record of the inner loop at offset `i` after lengths below
`jk` have been processed. -/
def lcsMaxAt (d0 : List Char) (rest : List (List Char)) (i jk : Nat) (substr : List Char) :
    Prop :=
  ∀ j, j < jk → i + j ≤ d0.length →
    commonSub (d0 :: rest) ((d0.drop i).take j) → j ≤ substr.length

/-- The record of `get_longest_common_subseq` is the slice at the smallest
start offset of `data[0]` realizing its length as a common substring: every
smaller offset carries no common slice of that same length. -/
def lcsFirstAt (d0 : List Char) (rest : List (List Char)) (substr : List Char) : Prop :=
  ∃ i0, i0 + substr.length ≤ d0.length ∧ substr = (d0.drop i0).take substr.length ∧
    ∀ i, i < i0 → ¬(i + substr.length ≤ d0.length ∧
      commonSub (d0 :: rest) ((d0.drop i).take substr.length))

/-- One update step of `get_longest_common_subseq`: record the slice
`data[0][i : i + j]` when its length `j` strictly exceeds the record so far
and it is contained in every element of `data`. -/
def lcsStep (data : List (List Char)) (d0 : List Char) (i : Nat)
    (substr : List Char) (j : Nat) : List Char :=
  if substr.length < j ∧ is_subseq_of_any ((d0.drop i).take j) data = true then
    (d0.drop i).take j
  else substr

/-- The function `get_longest_common_subseq` of utils.py: starting from the
empty record, for every start offset `i` of `data[0]` (ascending) and every
length `j` in `range(len(data[0]) - i + 1)` (ascending), record the slice
`data[0][i : i + j]` when it is common to all of `data` and strictly longer
than the record; the guard returns the empty record unless `data` has more
than one element and `data[0]` is non-empty. -/
def get_longest_common_subseq (data : List (List Char)) : List Char :=
  if 1 < data.length ∧ 0 < (data.headD []).length then
    (List.range (data.headD []).length).foldl
      (fun substr i =>
        (List.range ((data.headD []).length - i + 1)).foldl
          (lcsStep data (data.headD []) i) substr)
      []
  else []

/-! Bridging lemmas between the executable string scanners and structural
descriptions of strings. -/

theorem prefix_bool_iff (l₁ l₂ : List Char) :
    l₁.isPrefixOf l₂ = true ↔ ∃ t, l₂ = l₁ ++ t := by
  induction l₁ generalizing l₂ with
  | nil => simp [List.isPrefixOf]
  | cons a as ih =>
    cases l₂ with
    | nil => simp [List.isPrefixOf]
    | cons b bs =>
      simp only [List.isPrefixOf, Bool.and_eq_true, beq_iff_eq, ih, List.cons_append,
        List.cons.injEq]
      constructor
      · rintro ⟨rfl, t, rfl⟩; exact ⟨t, rfl, rfl⟩
      · rintro ⟨t, rfl, rfl⟩; exact ⟨rfl, t, rfl⟩

theorem suffix_bool_iff (l₁ l₂ : List Char) :
    l₁.isSuffixOf l₂ = true ↔ ∃ t, l₂ = t ++ l₁ := by
  rw [List.isSuffixOf, prefix_bool_iff]
  constructor
  · rintro ⟨t, ht⟩
    refine ⟨t.reverse, ?_⟩
    have h2 := congrArg List.reverse ht
    simpa [List.reverse_append] using h2
  · rintro ⟨t, rfl⟩
    exact ⟨t.reverse, by simp [List.reverse_append]⟩

theorem takeWhile_all {α : Type} (p : α → Bool) (l : List α) (h : ∀ x ∈ l, p x = true) :
    l.takeWhile p = l := by
  induction l with
  | nil => rfl
  | cons a as ih =>
    rw [List.takeWhile_cons, if_pos (h a (List.mem_cons_self a as)),
      ih (fun x hx => h x (List.mem_cons_of_mem a hx))]

theorem takeWhile_middle {α : Type} (p : α → Bool) (a b : List α) (c : α)
    (ha : ∀ x ∈ a, p x = true) (hc : p c = false) :
    (a ++ c :: b).takeWhile p = a := by
  induction a with
  | nil => simp [List.takeWhile_cons, hc]
  | cons x xs ih =>
    rw [List.cons_append, List.takeWhile_cons, if_pos (ha x (List.mem_cons_self x xs)),
      ih (fun y hy => ha y (List.mem_cons_of_mem x hy))]

theorem dropWhile_middle {α : Type} (p : α → Bool) (a b : List α) (c : α)
    (ha : ∀ x ∈ a, p x = true) (hc : p c = false) :
    (a ++ c :: b).dropWhile p = c :: b := by
  induction a with
  | nil => simp [List.dropWhile_cons, hc]
  | cons x xs ih =>
    rw [List.cons_append, List.dropWhile_cons, if_pos (ha x (List.mem_cons_self x xs)),
      ih (fun y hy => ha y (List.mem_cons_of_mem x hy))]

theorem str_contains_iff (item x : List Char) :
    str_contains item x = true ↔ ∃ s t, item = s ++ x ++ t := by
  unfold str_contains
  rw [List.any_eq_true]
  constructor
  · rintro ⟨i, _, hp⟩
    rw [prefix_bool_iff] at hp
    obtain ⟨t, ht⟩ := hp
    refine ⟨item.take i, t, ?_⟩
    conv_lhs => rw [← List.take_append_drop i item]
    rw [ht, List.append_assoc]
  · rintro ⟨s, t, rfl⟩
    refine ⟨s.length, List.mem_range.mpr ?_, ?_⟩
    · simp only [List.length_append]
      omega
    · rw [prefix_bool_iff]
      exact ⟨t, by rw [List.append_assoc, List.drop_left]⟩

theorem reSearch_eq_none_iff (m : List Char → Nat → Option (List Char)) (root : List Char) :
    reSearch m root = none ↔ ∀ p, p ≤ root.length → m root p = none := by
  unfold reSearch
  rw [List.findSome?_eq_none_iff]
  constructor
  · intro h p hp
    exact h p (List.mem_range.mpr (Nat.lt_succ_of_le hp))
  · intro h p hp
    exact h p (Nat.lt_succ_iff.mp (List.mem_range.mp hp))

theorem reSearch_some_elim {m : List Char → Nat → Option (List Char)}
    {root v : List Char} (h : reSearch m root = some v) :
    ∃ p, p ≤ root.length ∧ m root p = some v := by
  obtain ⟨p, hp, hm⟩ := List.exists_of_findSome?_eq_some h
  exact ⟨p, Nat.lt_succ_iff.mp (List.mem_range.mp hp), hm⟩

theorem reSearch_ne_none {m : List Char → Nat → Option (List Char)}
    {root : List Char} {p : Nat} (hp : p ≤ root.length) (h : m root p ≠ none) :
    reSearch m root ≠ none := by
  intro hn
  exact h ((reSearch_eq_none_iff m root).mp hn p hp)

theorem lookaround_intro (pre post s t root : List Char)
    (h : root = s ++ pre ++ (post ++ t)) :
    (s ++ pre).length ≤ root.length ∧
      pre.isSuffixOf (root.take (s ++ pre).length) = true ∧
      post.isPrefixOf (root.drop (s ++ pre).length) = true := by
  subst h
  refine ⟨?_, ?_, ?_⟩
  · rw [List.length_append (s ++ pre)]
    exact Nat.le_add_right _ _
  · rw [List.take_left, suffix_bool_iff]
    exact ⟨s, rfl⟩
  · rw [List.drop_left, prefix_bool_iff]
    exact ⟨t, rfl⟩

theorem lookaround_elim (pre post root : List Char) (p : Nat) (_hp : p ≤ root.length)
    (h1 : pre.isSuffixOf (root.take p) = true)
    (h2 : post.isPrefixOf (root.drop p) = true) :
    ∃ s t, root = s ++ pre ++ post ++ t := by
  rw [suffix_bool_iff] at h1
  rw [prefix_bool_iff] at h2
  obtain ⟨u, hu⟩ := h1
  obtain ⟨w, hw⟩ := h2
  refine ⟨u, w, ?_⟩
  conv_lhs => rw [← List.take_append_drop p root]
  rw [hu, hw]
  simp [List.append_assoc]

/-! Basename and root-extraction lemmas. -/

theorem basename_no_slash (l : List Char) (h : '/' ∉ l) : basename l = l := by
  unfold basename
  rw [takeWhile_all _ _ ?_, List.reverse_reverse]
  intro x hx
  rw [List.mem_reverse] at hx
  simp only [decide_eq_true_eq]
  exact fun hxx => h (hxx ▸ hx)

theorem splitextRoot_strips_last (a b : List Char) (hb : '.' ∉ b)
    (ha : ∃ c ∈ a, c ≠ '.') : splitextRoot (a ++ '.' :: b) = a := by
  have hrev : (a ++ '.' :: b).reverse.takeWhile (fun c => c ≠ '.') = b.reverse := by
    rw [List.reverse_append, List.reverse_cons, List.append_assoc, List.singleton_append]
    refine takeWhile_middle _ _ _ _ ?_ (by simp)
    intro x hx
    rw [List.mem_reverse] at hx
    simp only [decide_eq_true_eq]
    exact fun hxx => hb (hxx ▸ hx)
  have hlen : (a ++ '.' :: b).length = a.length + b.length + 1 := by
    simp [List.length_append]
    omega
  have hne : ¬(((a ++ '.' :: b).reverse.takeWhile (fun c => c ≠ '.')).length =
      (a ++ '.' :: b).length) := by
    rw [hrev, List.length_reverse, hlen]
    omega
  have hidx : (a ++ '.' :: b).length -
      ((a ++ '.' :: b).reverse.takeWhile (fun c => c ≠ '.')).length - 1 = a.length := by
    rw [hrev, List.length_reverse, hlen]
    omega
  have htake : (a ++ '.' :: b).take a.length = a := List.take_left a ('.' :: b)
  have hall : ¬(((a ++ '.' :: b).take a.length).all (fun c => c = '.') = true) := by
    rw [htake]
    intro hx
    obtain ⟨c, hc, hcd⟩ := ha
    have := List.all_eq_true.mp hx c hc
    rw [decide_eq_true_eq] at this
    exact hcd this
  unfold splitextRoot
  simp only []
  rw [if_neg hne, hidx, if_neg hall, htake]

/-- C4 counterexample: for a basename with more than one dot, such as
`x_pial.surf.vtk`, the default policy returns the text before the FIRST dot
(`x_pial`), not everything up to the last dot (`x_pial.surf`) as the claim
states. -/
theorem default_root_first_dot_cex :
    _get_filename_root "x_pial.surf.vtk".data false = "x_pial".data ∧
      _get_filename_root "x_pial.surf.vtk".data false ≠ "x_pial.surf".data := by
  refine ⟨rfl, ?_⟩
  decide

/-- C4 (amended): the default root-extraction policy keeps the basename text
before the FIRST dot; the period-preserving policy (`has_period = true`)
strips only the final extension, i.e. the text from the last dot on
(provided some character before that dot is not itself a dot). -/
theorem filename_root_policies :
    (∀ a b : List Char, '.' ∉ a → '/' ∉ a → '/' ∉ b →
      _get_filename_root (a ++ '.' :: b) false = a) ∧
    (∀ a b : List Char, '/' ∉ a → '/' ∉ b → '.' ∉ b → (∃ c ∈ a, c ≠ '.') →
      _get_filename_root (a ++ '.' :: b) true = a) := by
  constructor
  · intro a b hdot hsa hsb
    have hs : '/' ∉ a ++ '.' :: b := by
      intro hmem
      rcases List.mem_append.mp hmem with h1 | h1
      · exact hsa h1
      · rcases List.mem_cons.mp h1 with h2 | h2
        · exact absurd h2 (by decide)
        · exact hsb h2
    show (basename (a ++ '.' :: b)).takeWhile (fun c => c ≠ '.') = a
    rw [basename_no_slash _ hs]
    refine takeWhile_middle _ _ _ _ ?_ (by simp)
    intro x hx
    simp only [decide_eq_true_eq]
    exact fun hxx => hdot (hxx ▸ hx)
  · intro a b hsa hsb hdotb hex
    have hs : '/' ∉ a ++ '.' :: b := by
      intro hmem
      rcases List.mem_append.mp hmem with h1 | h1
      · exact hsa h1
      · rcases List.mem_cons.mp h1 with h2 | h2
        · exact absurd h2 (by decide)
        · exact hsb h2
    show splitextRoot (basename (a ++ '.' :: b)) = a
    rw [basename_no_slash _ hs]
    exact splitextRoot_strips_last a b hdotb hex

/-- C4 witness: the amended policies evaluated on the spec's own example
basename `x_pial.surf.vtk`. -/
theorem filename_root_policies_witness :
    ('.' ∉ "x_pial".data) ∧ ('/' ∉ "x_pial".data) ∧ ('/' ∉ "surf.vtk".data) ∧
      _get_filename_root ("x_pial".data ++ '.' :: "surf.vtk".data) false = "x_pial".data ∧
      ('.' ∉ "vtk".data) ∧ (∃ c ∈ "x_pial.surf".data, c ≠ '.') ∧
      _get_filename_root ("x_pial.surf".data ++ '.' :: "vtk".data) true = "x_pial.surf".data :=
  ⟨by decide, by decide, by decide,
    filename_root_policies.1 "x_pial".data "surf.vtk".data (by decide) (by decide) (by decide),
    by decide, by decide,
    filename_root_policies.2 "x_pial.surf".data "vtk".data (by decide) (by decide) (by decide)
      (by decide)⟩

/-- C3: evaluation at the failing input of the repository's own test
`test_get_dti_measure_from_filename`: the `Label` enumeration of utils.py has
no `DTI` member (nor `EXCLUDEINCLUDE`), so a DTI-map label kind falls through
the dispatch chain of `get_label_value_from_filename` into the `LabelError`
branch instead of extracting `"FA"` from the `_label-FA` token. -/
theorem dti_label_kind_raises :
    get_label_value_from_filename
      "/dir/subdir/sub01-dwi_space-MNI152NLin2009cSym_model-DTI_label-FA.nii.gz".data
      (.unknown "Label.DTI") false = .error ⟨"Label.DTI"⟩ := rfl

/-! Bundle-key building and decomposition (C9). -/

/-- C9 counterexample: two distinct (bundle, hemisphere) pairs from the
claim's domain build the very same key, so no decomposition at the `,`
separator can recover both: the key of bundle `A,L` with absent hemisphere
equals the key of bundle `A` with hemisphere `L`. -/
theorem bundle_key_collision_cex :
    _build_bundle_key "A,L".data none = _build_bundle_key "A".data (some "L".data) ∧
      ("A,L".data, (none : Option (List Char))) ≠ ("A".data, some "L".data) := by
  refine ⟨rfl, ?_⟩
  decide

/-- C9 (amended): for bundle names containing no `,` (the separator), the key
built by `_build_bundle_key` decomposes at the first `,` back into exactly
the bundle name and the hemisphere, and the key is the bundle name itself
when the hemisphere is absent and the `,`-joined pair otherwise. -/
theorem bundle_key_roundtrip :
    ∀ (b : List Char) (h : Option (List Char)), ',' ∉ b →
      (h = none ∨ h = some "L".data ∨ h = some "R".data) →
      decomposeBundleKey (_build_bundle_key b h) = (b, h) ∧
        _build_bundle_key b h =
          (match h with | none => b | some hh => b ++ ",".data ++ hh) := by
  have hany : ∀ b : List Char, ',' ∉ b → (b.any (fun c => c = ',')) = false := by
    intro b hb
    rw [← Bool.not_eq_true]
    intro hx
    obtain ⟨c, hc, hcd⟩ := List.any_eq_true.mp hx
    rw [decide_eq_true_eq] at hcd
    exact hb (hcd ▸ hc)
  have hone : ∀ (b : List Char) (x : Char), ',' ∉ b →
      decomposeBundleKey (b ++ ',' :: [x]) = (b, some [x]) := by
    intro b x hb
    have hmem : (b ++ ',' :: [x]).any (fun c => c = ',') = true := by
      rw [List.any_eq_true]
      exact ⟨',', List.mem_append.mpr (Or.inr (List.mem_cons_self _ _)), by decide⟩
    have hp : ∀ y ∈ b, (fun c => decide (c ≠ ',')) y = true := by
      intro y hy
      simp only [decide_eq_true_eq]
      exact fun hyy => hb (hyy ▸ hy)
    unfold decomposeBundleKey
    rw [if_pos hmem, takeWhile_middle _ _ _ _ hp (by simp),
      dropWhile_middle _ _ _ _ hp (by simp)]
    rfl
  intro b h hb hcase
  have hkeyL : ∀ x : Char, _build_bundle_key b (some [x]) = b ++ ',' :: [x] := by
    intro x
    show (if [x] ≠ [] then b ++ key_separator ++ [x] else b) = b ++ ',' :: [x]
    rw [if_pos (by simp)]
    simp [key_separator, List.append_assoc]
  rcases hcase with rfl | rfl | rfl
  · refine ⟨?_, rfl⟩
    show decomposeBundleKey b = (b, none)
    unfold decomposeBundleKey
    rw [if_neg (by simp [hany b hb])]
  · refine ⟨?_, ?_⟩
    · rw [hkeyL 'L']
      exact hone b 'L' hb
    · rw [hkeyL 'L']
      simp [List.append_assoc]
  · refine ⟨?_, ?_⟩
    · rw [hkeyL 'R']
      exact hone b 'R' hb
    · rw [hkeyL 'R']
      simp [List.append_assoc]

/-- C9 witness: the amended round trip evaluated at bundle `Cing` with and
without a hemisphere. -/
theorem bundle_key_roundtrip_witness :
    (',' ∉ "Cing".data) ∧
      decomposeBundleKey (_build_bundle_key "Cing".data (some "L".data)) =
        ("Cing".data, some "L".data) ∧
      decomposeBundleKey (_build_bundle_key "Cing".data none) = ("Cing".data, none) :=
  ⟨by decide,
    (bundle_key_roundtrip "Cing".data (some "L".data) (by decide) (Or.inr (Or.inl rfl))).1,
    (bundle_key_roundtrip "Cing".data none (by decide) (Or.inl rfl)).1⟩

/-! Closed-vocabulary lemmas for the individual pattern matchers. -/

theorem hemisphereMatchAt_vocab {root : List Char} {p : Nat} {v : List Char}
    (h : hemisphereMatchAt root p = some v) : v = "L".data ∨ v = "R".data := by
  unfold hemisphereMatchAt at h
  split_ifs at h
  · exact Or.inl (Option.some.inj h).symm
  · exact Or.inr (Option.some.inj h).symm

theorem endpointMatchAt_vocab {root : List Char} {p : Nat} {v : List Char}
    (h : endpointMatchAt root p = some v) : v = "head".data ∨ v = "tail".data := by
  unfold endpointMatchAt at h
  split_ifs at h
  · exact Or.inl (Option.some.inj h).symm
  · exact Or.inr (Option.some.inj h).symm

theorem surfaceMatchAt_vocab {root : List Char} {p : Nat} {v : List Char}
    (h : surfaceMatchAt root p = some v) : v = "pial".data ∨ v = "wm".data := by
  unfold surfaceMatchAt at h
  split_ifs at h
  · exact Or.inl (Option.some.inj h).symm
  · exact Or.inr (Option.some.inj h).symm

theorem tissueMatchAt_vocab {root : List Char} {p : Nat} {v : List Char}
    (h : tissueMatchAt root p = some v) :
    v = "CSF".data ∨ v = "GM".data ∨ v = "WM".data := by
  unfold tissueMatchAt at h
  split_ifs at h
  · exact Or.inl (Option.some.inj h).symm
  · exact Or.inr (Or.inl (Option.some.inj h).symm)
  · exact Or.inr (Or.inr (Option.some.inj h).symm)

/-- C8: hemisphere extraction only ever yields `L`, `R` or the absent value,
and endpoint extraction only ever yields `head`, `tail` or the absent value;
an out-of-set token in the correct marker position (`hemi-C`, truncated
`part-he`) yields absent, while a well-formed `part-head` yields `head`. -/
theorem hemisphere_endpoint_closed_sets :
    (∀ (fname : List Char) (hp : Bool),
      get_label_value_from_filename fname (.known .HEMISPHERE) hp = .ok none ∨
      get_label_value_from_filename fname (.known .HEMISPHERE) hp = .ok (some "L".data) ∨
      get_label_value_from_filename fname (.known .HEMISPHERE) hp = .ok (some "R".data)) ∧
    (∀ (fname : List Char) (hp : Bool),
      get_label_value_from_filename fname (.known .ENDPOINT) hp = .ok none ∨
      get_label_value_from_filename fname (.known .ENDPOINT) hp = .ok (some "head".data) ∨
      get_label_value_from_filename fname (.known .ENDPOINT) hp = .ok (some "tail".data)) ∧
    get_label_value_from_filename "a_hemi-C_b".data (.known .HEMISPHERE) false = .ok none ∧
    get_label_value_from_filename "a_part-he_b".data (.known .ENDPOINT) false = .ok none ∧
    get_label_value_from_filename "a_part-head_b".data (.known .ENDPOINT) false =
      .ok (some "head".data) := by
  refine ⟨?_, ?_, rfl, rfl, rfl⟩
  · intro fname hp
    show Except.ok (reSearch hemisphereMatchAt (_get_filename_root fname hp)) = .ok none ∨
      Except.ok (reSearch hemisphereMatchAt (_get_filename_root fname hp)) =
        .ok (some "L".data) ∨
      Except.ok (reSearch hemisphereMatchAt (_get_filename_root fname hp)) =
        .ok (some "R".data)
    cases hre : reSearch hemisphereMatchAt (_get_filename_root fname hp) with
    | none => exact Or.inl rfl
    | some v =>
      obtain ⟨p, _, hm⟩ := reSearch_some_elim hre
      rcases hemisphereMatchAt_vocab hm with rfl | rfl
      · exact Or.inr (Or.inl rfl)
      · exact Or.inr (Or.inr rfl)
  · intro fname hp
    show Except.ok (reSearch endpointMatchAt (_get_filename_root fname hp)) = .ok none ∨
      Except.ok (reSearch endpointMatchAt (_get_filename_root fname hp)) =
        .ok (some "head".data) ∨
      Except.ok (reSearch endpointMatchAt (_get_filename_root fname hp)) =
        .ok (some "tail".data)
    cases hre : reSearch endpointMatchAt (_get_filename_root fname hp) with
    | none => exact Or.inl rfl
    | some v =>
      obtain ⟨p, _, hm⟩ := reSearch_some_elim hre
      rcases endpointMatchAt_vocab hm with rfl | rfl
      · exact Or.inr (Or.inl rfl)
      · exact Or.inr (Or.inr rfl)

/-! Filtering lemmas. -/

theorem labelValuePairFor_known (l : Label) (v : List Char) :
    labelValuePairFor (.known l) v = .ok (tokenFor l v) := by
  cases l <;> rfl

theorem filter_list_on_list_single (fnames : List (List Char)) (lv : List Char) :
    filter_list_on_list fnames [lv] = fnames.filter (fun f => str_contains f lv) := by
  unfold filter_list_on_list
  refine List.filter_congr ?_
  intro f _
  simp [List.any_cons, List.any_nil]

theorem filter_known_flatMap (fnames : List (List Char)) (l : Label)
    (values : List (List Char)) :
    filter_filenames_on_value fnames (.known l) values =
      .ok (values.flatMap
        (fun v => fnames.filter (fun f => str_contains f (tokenFor l v)))) := by
  induction values with
  | nil => rfl
  | cons v vs ih =>
    simp only [filter_filenames_on_value, labelValuePairFor_known, ih, List.flatMap_cons,
      filter_list_on_list_single]

/-- C6: filtering with a valid label kind returns exactly the concatenation,
over the requested values in their given order, of the sublists of input
filenames containing the built token (`label-value`, or `value.label` for the
surface kind) as a substring; `List.filter` preserves the input order within
each value, and the concatenation keeps a filename once per matching value
with no deduplication across values. -/
theorem filter_concatenation_spec :
    ∀ (fnames : List (List Char)) (l : Label) (values : List (List Char)),
      filter_filenames_on_value fnames (.known l) values =
        .ok (values.flatMap
          (fun v => fnames.filter (fun f => str_contains f (tokenFor l v)))) :=
  fun fnames l values => filter_known_flatMap fnames l values

/-- C10: extraction and filtering signal `LabelError` exactly for a label
kind outside the enumeration (filtering under the contract's non-empty value
list); for every valid kind they never raise, a filename without the label
gives the absent value, and filtering with values matching no filename gives
the empty list. -/
theorem label_error_iff :
    (∀ (fname : List Char) (l : Label) (hp : Bool),
      ∃ r, get_label_value_from_filename fname (.known l) hp = .ok r) ∧
    (∀ (fname : List Char) (s : String) (hp : Bool),
      get_label_value_from_filename fname (.unknown s) hp = .error ⟨s⟩) ∧
    (∀ (fnames : List (List Char)) (l : Label) (values : List (List Char)),
      ∃ r, filter_filenames_on_value fnames (.known l) values = .ok r) ∧
    (∀ (fnames : List (List Char)) (s : String) (values : List (List Char)),
      values ≠ [] → filter_filenames_on_value fnames (.unknown s) values = .error ⟨s⟩) ∧
    (∀ (fnames : List (List Char)) (l : Label) (values : List (List Char)),
      (∀ f ∈ fnames, ∀ v ∈ values, str_contains f (tokenFor l v) = false) →
      filter_filenames_on_value fnames (.known l) values = .ok []) := by
  refine ⟨?_, ?_, ?_, ?_, ?_⟩
  · intro fname l hp
    cases l <;> exact ⟨_, rfl⟩
  · intro fname s hp
    rfl
  · intro fnames l values
    exact ⟨_, filter_known_flatMap fnames l values⟩
  · intro fnames s values hne
    cases values with
    | nil => exact absurd rfl hne
    | cons v vs => rfl
  · intro fnames l values hnone
    rw [filter_known_flatMap]
    congr 1
    induction values with
    | nil => rfl
    | cons v vs ih =>
      rw [List.flatMap_cons, ih (fun f hf v hv => hnone f hf v (List.mem_cons_of_mem _ hv)),
        List.append_nil, List.filter_eq_nil_iff]
      intro f hf
      rw [hnone f hf v (List.mem_cons_self _ _)]
      simp

/-- C10 witness: the error and empty-result branches evaluated at concrete
inputs. -/
theorem label_error_iff_witness :
    (["x".data] ≠ ([] : List (List Char))) ∧
      filter_filenames_on_value ["a".data] (.unknown "Label.EXCLUDEINCLUDE") ["x".data] =
        .error ⟨"Label.EXCLUDEINCLUDE"⟩ ∧
      str_contains "ab".data (tokenFor .BUNDLE "zz".data) = false ∧
      filter_filenames_on_value ["ab".data] (.known .BUNDLE) ["zz".data] = .ok [] :=
  ⟨by decide,
    label_error_iff.2.2.2.1 ["a".data] "Label.EXCLUDEINCLUDE" ["x".data] (by decide),
    by decide,
    label_error_iff.2.2.2.2 ["ab".data] .BUNDLE ["zz".data] (by decide)⟩

/-! Surface-pattern characterization (C1). -/

theorem surfaceMatchAt_some_pattern {root : List Char} {p : Nat} {v : List Char}
    (hple : p ≤ root.length) (h : surfaceMatchAt root p = some v) :
    (∃ s t, root = s ++ "_pial".data ++ t) ∨
      (∃ c s t, c ≠ '\n' ∧ root = s ++ ('w' :: 'm' :: c :: "surf".data) ++ t) := by
  unfold surfaceMatchAt at h
  split_ifs at h with h1 h2
  · left
    rw [Bool.and_eq_true] at h1
    obtain ⟨s, t, hst⟩ := lookaround_elim "_".data "pial".data root p hple h1.1 h1.2
    refine ⟨s, t, ?_⟩
    have hsplit : ("_pial".data : List Char) = "_".data ++ "pial".data := rfl
    rw [hsplit, hst]
    simp [List.append_assoc]
  · right
    rw [Bool.and_eq_true] at h2
    obtain ⟨u, hu⟩ := (prefix_bool_iff _ _).mp h2.1
    have hu2 : (root.drop p).drop (Surface.WM.value).length = u := by
      rw [hu, List.drop_left]
    have hla := h2.2
    rw [hu2] at hla
    cases u with
    | nil => exact absurd hla (by simp [surfaceWmLookahead])
    | cons c rest =>
      simp only [surfaceWmLookahead, Bool.and_eq_true, decide_eq_true_eq] at hla
      obtain ⟨w, hw⟩ := (prefix_bool_iff _ _).mp hla.2
      refine ⟨c, root.take p, w, hla.1, ?_⟩
      conv_lhs => rw [← List.take_append_drop p root]
      rw [hu, hw]
      have hwm : (Surface.WM.value : List Char) = 'w' :: 'm' :: [] := rfl
      rw [hwm]
      simp only [List.cons_append, List.nil_append, List.append_assoc, List.cons.injEq,
        true_and]
      rfl

theorem surface_pattern_matches {root : List Char}
    (h : (∃ s t, root = s ++ "_pial".data ++ t) ∨
      (∃ c s t, c ≠ '\n' ∧ root = s ++ ('w' :: 'm' :: c :: "surf".data) ++ t)) :
    reSearch surfaceMatchAt root ≠ none := by
  rcases h with ⟨s, t, hst⟩ | ⟨c, s, t, hc, hst⟩
  · have hsplit : root = s ++ "_".data ++ ("pial".data ++ t) := by
      have he : ("_pial".data : List Char) = "_".data ++ "pial".data := rfl
      rw [hst, he]
      simp [List.append_assoc]
    obtain ⟨hple, hsuf, hpre⟩ := lookaround_intro "_".data "pial".data s t root hsplit
    refine reSearch_ne_none hple ?_
    intro hnone
    unfold surfaceMatchAt at hnone
    rw [if_pos (by rw [Bool.and_eq_true]; exact ⟨hsuf, hpre⟩)] at hnone
    exact Option.noConfusion hnone
  · have hple : s.length ≤ root.length := by
      rw [hst, List.length_append, List.length_append]
      omega
    have hdrop : root.drop s.length = ('w' :: 'm' :: c :: "surf".data) ++ t := by
      conv_lhs => rw [hst]
      rw [List.append_assoc, List.drop_left]
    refine reSearch_ne_none hple ?_
    intro hnone
    unfold surfaceMatchAt at hnone
    split_ifs at hnone with h1 h2
    refine h2 ?_
    rw [Bool.and_eq_true]
    constructor
    · rw [prefix_bool_iff]
      refine ⟨c :: ("surf".data ++ t), ?_⟩
      rw [hdrop]
      have hwm : (Surface.WM.value : List Char) = 'w' :: 'm' :: [] := rfl
      rw [hwm]
      simp [List.append_assoc]
    · rw [hdrop]
      have hwm2 : (('w' :: 'm' :: c :: "surf".data) ++ t).drop (Surface.WM.value).length =
          c :: ("surf".data ++ t) := by
        simp [Surface.value]
      rw [hwm2]
      simp only [surfaceWmLookahead, Bool.and_eq_true, decide_eq_true_eq]
      refine ⟨hc, ?_⟩
      rw [prefix_bool_iff]
      exact ⟨t, rfl⟩

/-- C1 counterexample: on a root carrying `pial` after a `_` but with no
`.surf` marker anywhere, surface extraction still returns `pial`; the claim
requires the absent value there. -/
theorem surface_pial_without_surf_cex :
    get_label_value_from_filename "a_pialb.nii".data (.known .SURFACE) false =
      .ok (some "pial".data) ∧
      str_contains (_get_filename_root "a_pialb.nii".data false) ".surf".data = false ∧
      (some "pial".data : Option (List Char)) ≠ none :=
  ⟨rfl, by decide, by decide⟩

/-- C1 (amended): surface extraction only ever yields `pial`, `wm` or the
absent value, and the result is present exactly when the filename root
contains `_pial` (the `pial` branch of the regex requires only the preceding
`_`, not the `.surf` marker) or contains `wm` followed by one arbitrary
non-newline character and `surf` (the `wm` branch requires only that
lookahead, not a preceding `_`): alternation precedence splits the surface
regex into these two independent branches. -/
theorem surface_extraction_characterization :
    ∀ (fname : List Char) (hp : Bool),
      ∃ r, get_label_value_from_filename fname (.known .SURFACE) hp = .ok r ∧
        (r = none ∨ r = some "pial".data ∨ r = some "wm".data) ∧
        (r ≠ none ↔
          ((∃ s t, _get_filename_root fname hp = s ++ "_pial".data ++ t) ∨
            (∃ c s t, c ≠ '\n' ∧
              _get_filename_root fname hp = s ++ ('w' :: 'm' :: c :: "surf".data) ++ t))) := by
  intro fname hp
  refine ⟨reSearch surfaceMatchAt (_get_filename_root fname hp), rfl, ?_, ?_⟩
  · cases hre : reSearch surfaceMatchAt (_get_filename_root fname hp) with
    | none => exact Or.inl rfl
    | some v =>
      obtain ⟨p, _, hm⟩ := reSearch_some_elim hre
      rcases surfaceMatchAt_vocab hm with rfl | rfl
      · exact Or.inr (Or.inl rfl)
      · exact Or.inr (Or.inr rfl)
  · constructor
    · intro hne
      obtain ⟨v, hv⟩ := Option.ne_none_iff_exists'.mp hne
      obtain ⟨p, hple, hm⟩ := reSearch_some_elim hv
      exact surfaceMatchAt_some_pattern hple hm
    · exact surface_pattern_matches

/-! Tissue-pattern characterization (C2). -/

theorem tissueMatchAt_some_pattern {root : List Char} {p : Nat} {v : List Char}
    (hple : p ≤ root.length) (h : tissueMatchAt root p = some v) :
    (∃ s t, root = s ++ "_label-CSF".data ++ t) ∨
      (∃ s t, root = s ++ "GM".data ++ t) ∨
      (∃ s t, root = s ++ "WM_dseg".data ++ t) ∨
      (∃ s t, root = s ++ "WM_probseg".data ++ t) := by
  unfold tissueMatchAt at h
  split_ifs at h with h1 h2 h3
  · left
    rw [Bool.and_eq_true] at h1
    obtain ⟨s, t, hst⟩ :=
      lookaround_elim ("_".data ++ general_label ++ label_value_separator)
        "CSF".data root p hple h1.1 h1.2
    refine ⟨s, t, ?_⟩
    have hsplit : ("_label-CSF".data : List Char) =
        ("_".data ++ general_label ++ label_value_separator) ++ "CSF".data := rfl
    rw [hsplit, hst]
    simp [List.append_assoc]
  · right; left
    obtain ⟨u, hu⟩ := (prefix_bool_iff _ _).mp h2
    refine ⟨root.take p, u, ?_⟩
    conv_lhs => rw [← List.take_append_drop p root]
    rw [hu]
    simp only [List.append_assoc]
    rfl
  · rw [Bool.and_eq_true, Bool.or_eq_true] at h3
    obtain ⟨u, hu⟩ := (prefix_bool_iff _ _).mp h3.1
    have hu2 : (root.drop p).drop (Tissue.WM.value).length = u := by
      rw [hu, List.drop_left]
    have hroot : root = root.take p ++ ("WM".data ++ u) := by
      conv_lhs => rw [← List.take_append_drop p root]
      rw [hu]
      rfl
    rcases h3.2 with hseg | hseg
    · right; right; left
      rw [hu2] at hseg
      obtain ⟨w, hw⟩ := (prefix_bool_iff _ _).mp hseg
      refine ⟨root.take p, w, ?_⟩
      conv_lhs => rw [hroot]
      rw [hw]
      have hsplit : ("WM_dseg".data : List Char) =
          "WM".data ++ ("_".data ++ discrete_segmentation_label) := rfl
      rw [hsplit]
      simp [List.append_assoc]
    · right; right; right
      rw [hu2] at hseg
      obtain ⟨w, hw⟩ := (prefix_bool_iff _ _).mp hseg
      refine ⟨root.take p, w, ?_⟩
      conv_lhs => rw [hroot]
      rw [hw]
      have hsplit : ("WM_probseg".data : List Char) =
          "WM".data ++ ("_".data ++ probabilistic_segmentation_label) := rfl
      rw [hsplit]
      simp [List.append_assoc]

theorem tissue_pattern_matches {root : List Char}
    (h : (∃ s t, root = s ++ "_label-CSF".data ++ t) ∨
      (∃ s t, root = s ++ "GM".data ++ t) ∨
      (∃ s t, root = s ++ "WM_dseg".data ++ t) ∨
      (∃ s t, root = s ++ "WM_probseg".data ++ t)) :
    reSearch tissueMatchAt root ≠ none := by
  have hgm : ∀ s t : List Char, root = s ++ "GM".data ++ t →
      reSearch tissueMatchAt root ≠ none := by
    intro s t hst
    have hple : s.length ≤ root.length := by
      rw [hst, List.length_append, List.length_append]
      omega
    have hdrop : root.drop s.length = "GM".data ++ t := by
      conv_lhs => rw [hst]
      rw [List.append_assoc, List.drop_left]
    refine reSearch_ne_none hple ?_
    intro hnone
    unfold tissueMatchAt at hnone
    split_ifs at hnone with h1 h2 h3
    refine h2 ?_
    rw [hdrop, prefix_bool_iff]
    exact ⟨t, rfl⟩
  have hwmseg : ∀ (seg : List Char), (("_".data ++ discrete_segmentation_label) = seg ∨
        ("_".data ++ probabilistic_segmentation_label) = seg) →
      ∀ s t : List Char, root = s ++ ("WM".data ++ seg) ++ t →
      reSearch tissueMatchAt root ≠ none := by
    intro seg hsegcase s t hst
    have hple : s.length ≤ root.length := by
      rw [hst, List.length_append, List.length_append]
      omega
    have hdrop : root.drop s.length = "WM".data ++ (seg ++ t) := by
      conv_lhs => rw [hst]
      rw [List.append_assoc, List.drop_left]
      simp [List.append_assoc]
    have hdrop2 : (root.drop s.length).drop (Tissue.WM.value).length = seg ++ t := by
      rw [hdrop]
      exact List.drop_left "WM".data (seg ++ t)
    refine reSearch_ne_none hple ?_
    intro hnone
    unfold tissueMatchAt at hnone
    split_ifs at hnone with h1 h2 h3
    refine h3 ?_
    rw [Bool.and_eq_true, Bool.or_eq_true]
    constructor
    · rw [hdrop, prefix_bool_iff]
      exact ⟨seg ++ t, rfl⟩
    · rcases hsegcase with rfl | rfl
      · left
        rw [hdrop2, prefix_bool_iff]
        exact ⟨t, rfl⟩
      · right
        rw [hdrop2, prefix_bool_iff]
        exact ⟨t, rfl⟩
  rcases h with ⟨s, t, hst⟩ | ⟨s, t, hst⟩ | ⟨s, t, hst⟩ | ⟨s, t, hst⟩
  · have hsplit : root = s ++ ("_".data ++ general_label ++ label_value_separator) ++
        ("CSF".data ++ t) := by
      have he : ("_label-CSF".data : List Char) =
          ("_".data ++ general_label ++ label_value_separator) ++ "CSF".data := rfl
      rw [hst, he]
      simp [List.append_assoc]
    obtain ⟨hple, hsuf, hpre⟩ :=
      lookaround_intro ("_".data ++ general_label ++ label_value_separator)
        "CSF".data s t root hsplit
    refine reSearch_ne_none hple ?_
    intro hnone
    unfold tissueMatchAt at hnone
    rw [if_pos (by rw [Bool.and_eq_true]; exact ⟨hsuf, hpre⟩)] at hnone
    exact Option.noConfusion hnone
  · exact hgm s t hst
  · refine hwmseg ("_".data ++ discrete_segmentation_label) (Or.inl rfl) s t ?_
    have he : ("WM_dseg".data : List Char) =
        "WM".data ++ ("_".data ++ discrete_segmentation_label) := rfl
    rw [hst, he]
  · refine hwmseg ("_".data ++ probabilistic_segmentation_label) (Or.inr rfl) s t ?_
    have he : ("WM_probseg".data : List Char) =
        "WM".data ++ ("_".data ++ probabilistic_segmentation_label) := rfl
    rw [hst, he]

/-- C2 counterexample: on a root containing `GM` with no `_label-` marker and
no segmentation suffix anywhere, tissue extraction still returns `GM`; the
claim requires the absent value there. -/
theorem tissue_gm_anywhere_cex :
    get_label_value_from_filename "aGMb.nii".data (.known .TISSUE) false =
      .ok (some "GM".data) ∧
      str_contains (_get_filename_root "aGMb.nii".data false) "_label-".data = false ∧
      str_contains (_get_filename_root "aGMb.nii".data false) "dseg".data = false ∧
      str_contains (_get_filename_root "aGMb.nii".data false) "probseg".data = false ∧
      (some "GM".data : Option (List Char)) ≠ none :=
  ⟨rfl, by decide, by decide, by decide, by decide⟩

/-- C2 (amended): tissue extraction only ever yields `CSF`, `GM`, `WM` or the
absent value, and the result is present exactly when the filename root
contains `_label-CSF` (the `CSF` branch requires only the marker, no
segmentation suffix), or contains `GM` anywhere at all (the bare middle
branch of the alternation carries no context condition), or contains
`WM_dseg` or `WM_probseg` (the `WM` branch requires only the suffix, no
marker): alternation precedence splits the tissue regex into these three
independent branches. -/
theorem tissue_extraction_characterization :
    ∀ (fname : List Char) (hp : Bool),
      ∃ r, get_label_value_from_filename fname (.known .TISSUE) hp = .ok r ∧
        (r = none ∨ r = some "CSF".data ∨ r = some "GM".data ∨ r = some "WM".data) ∧
        (r ≠ none ↔
          ((∃ s t, _get_filename_root fname hp = s ++ "_label-CSF".data ++ t) ∨
            (∃ s t, _get_filename_root fname hp = s ++ "GM".data ++ t) ∨
            (∃ s t, _get_filename_root fname hp = s ++ "WM_dseg".data ++ t) ∨
            (∃ s t, _get_filename_root fname hp = s ++ "WM_probseg".data ++ t))) := by
  intro fname hp
  refine ⟨reSearch tissueMatchAt (_get_filename_root fname hp), rfl, ?_, ?_⟩
  · cases hre : reSearch tissueMatchAt (_get_filename_root fname hp) with
    | none => exact Or.inl rfl
    | some v =>
      obtain ⟨p, _, hm⟩ := reSearch_some_elim hre
      rcases tissueMatchAt_vocab hm with rfl | rfl | rfl
      · exact Or.inr (Or.inl rfl)
      · exact Or.inr (Or.inr (Or.inl rfl))
      · exact Or.inr (Or.inr (Or.inr rfl))
  · constructor
    · intro hne
      obtain ⟨v, hv⟩ := Option.ne_none_iff_exists'.mp hne
      obtain ⟨p, hple, hm⟩ := reSearch_some_elim hv
      exact tissueMatchAt_some_pattern hple hm
    · exact tissue_pattern_matches

/-! Trailing-token boundary behavior (C5). -/

theorem lookbehind_unique {m root s v : List Char} {p : Nat}
    (hroot : root = s ++ m ++ v) (hm : m ≠ [])
    (hun : ∀ i, i < root.length → m.isPrefixOf (root.drop i) = true → i = s.length)
    (hple : p ≤ root.length) (hsuf : m.isSuffixOf (root.take p) = true) :
    p = s.length + m.length ∧ root.drop p = v := by
  rw [suffix_bool_iff] at hsuf
  obtain ⟨u, hu⟩ := hsuf
  have hlen : p = u.length + m.length := by
    have h1 : (root.take p).length = p := by
      rw [List.length_take]
      omega
    rw [hu, List.length_append] at h1
    omega
  have hsplit : root = u ++ (m ++ root.drop p) := by
    conv_lhs => rw [← List.take_append_drop p root]
    rw [hu, List.append_assoc]
  have hprefu : m.isPrefixOf (root.drop u.length) = true := by
    rw [prefix_bool_iff]
    refine ⟨root.drop p, ?_⟩
    conv_lhs => rw [hsplit, List.drop_left]
  have hult : u.length < root.length := by
    conv_rhs => rw [hsplit]
    rw [List.length_append, List.length_append]
    have := List.length_pos.mpr hm
    omega
  have husl := hun u.length hult hprefu
  refine ⟨by omega, ?_⟩
  have hp : p = (s ++ m).length := by
    rw [List.length_append]
    omega
  rw [hp, hroot, List.drop_left]

theorem bundleMatchAt_end_none {s v : List Char} (hv : '_' ∉ v)
    (hun : ∀ i, i < (s ++ "_subset-".data ++ v).length →
      ("_subset-".data).isPrefixOf ((s ++ "_subset-".data ++ v).drop i) = true →
      i = s.length) :
    ∀ p, p ≤ (s ++ "_subset-".data ++ v).length →
      bundleMatchAt (s ++ "_subset-".data ++ v) p = none := by
  intro p hple
  have hmarker : ("_".data ++ bundle_label ++ label_value_separator : List Char) =
      "_subset-".data := rfl
  unfold bundleMatchAt
  rw [hmarker]
  by_cases hsuf : ("_subset-".data).isSuffixOf ((s ++ "_subset-".data ++ v).take p) = true
  · obtain ⟨hpv, hdrop⟩ := lookbehind_unique rfl (by decide) hun hple hsuf
    rw [if_pos hsuf, hdrop,
      takeWhile_all _ v (fun c hc => by
        simp only [decide_eq_true_eq]
        exact fun h => hv (h ▸ hc))]
    rw [if_neg ?_]
    intro hcond
    exact absurd hcond.1 (lt_irrefl _)
  · rw [if_neg hsuf]

theorem endpointMatchAt_end_none {s v : List Char} (hv : '_' ∉ v)
    (hun : ∀ i, i < (s ++ "_part-".data ++ v).length →
      ("_part-".data).isPrefixOf ((s ++ "_part-".data ++ v).drop i) = true →
      i = s.length) :
    ∀ p, p ≤ (s ++ "_part-".data ++ v).length →
      endpointMatchAt (s ++ "_part-".data ++ v) p = none := by
  intro p hple
  have hmarker : ("_".data ++ endpoint_label ++ label_value_separator : List Char) =
      "_part-".data := rfl
  have hnopre : ∀ w : List Char, '_' ∈ w → (w.isPrefixOf v) = false := by
    intro w hw
    rw [← Bool.not_eq_true]
    intro hpref
    obtain ⟨t, ht⟩ := (prefix_bool_iff _ _).mp hpref
    exact hv (ht ▸ List.mem_append.mpr (Or.inl hw))
  unfold endpointMatchAt
  rw [hmarker]
  by_cases hsuf : ("_part-".data).isSuffixOf ((s ++ "_part-".data ++ v).take p) = true
  · obtain ⟨hpv, hdrop⟩ := lookbehind_unique rfl (by decide) hun hple hsuf
    rw [if_pos hsuf, hdrop, hnopre (Endpoint.HEAD.value ++ "_".data) (by decide),
      hnopre (Endpoint.TAIL.value ++ "_".data) (by decide)]
    simp
  · rw [if_neg hsuf]

theorem hemisphereMatchAt_end_none {s v : List Char} (hv : '_' ∉ v)
    (hun : ∀ i, i < (s ++ "_hemi-".data ++ v).length →
      ("_hemi-".data).isPrefixOf ((s ++ "_hemi-".data ++ v).drop i) = true →
      i = s.length) :
    ∀ p, p ≤ (s ++ "_hemi-".data ++ v).length →
      hemisphereMatchAt (s ++ "_hemi-".data ++ v) p = none := by
  intro p hple
  have hmarker : ("_".data ++ hemisphere_label ++ label_value_separator : List Char) =
      "_hemi-".data := rfl
  have hnopre : ∀ w : List Char, '_' ∈ w → (w.isPrefixOf v) = false := by
    intro w hw
    rw [← Bool.not_eq_true]
    intro hpref
    obtain ⟨t, ht⟩ := (prefix_bool_iff _ _).mp hpref
    exact hv (ht ▸ List.mem_append.mpr (Or.inl hw))
  unfold hemisphereMatchAt
  rw [hmarker]
  by_cases hsuf : ("_hemi-".data).isSuffixOf ((s ++ "_hemi-".data ++ v).take p) = true
  · obtain ⟨hpv, hdrop⟩ := lookbehind_unique rfl (by decide) hun hple hsuf
    rw [if_pos hsuf, hdrop, hnopre (Hemisphere.LEFT.value ++ "_".data) (by decide),
      hnopre (Hemisphere.RIGHT.value ++ "_".data) (by decide)]
    simp
  · rw [if_neg hsuf]

/-- C5 counterexample: the claim quantifies over every filename whose root
ends with a label token, but on a root holding an earlier, properly
delimited token of the same kind the result is not absent: the root
`a_subset-X_b_subset-CC` ends with the token `subset-CC`, yet bundle
extraction returns `X`. -/
theorem trailing_token_cex :
    get_label_value_from_filename "a_subset-X_b_subset-CC".data (.known .BUNDLE) false =
      .ok (some "X".data) ∧
      ("_subset-CC".data).isSuffixOf
        (_get_filename_root "a_subset-X_b_subset-CC".data false) = true ∧
      (some "X".data : Option (List Char)) ≠ none :=
  ⟨rfl, by decide, by decide⟩

/-- C5 (amended): a label token whose value sits at the absolute end of the
filename root is never matched, because the grammars require an explicit
trailing `_`; in particular, when the root ends with the token and contains
no other occurrence of the marker, extraction for that kind returns the
absent value (stated for the bundle, endpoint and hemisphere kinds, for any
underscore-free value, covering both in-vocabulary values such as
`part-head` and arbitrary bundle names such as `subset-CC`). -/
theorem trailing_token_never_matched :
    (∀ (s v fname : List Char) (hp : Bool), '_' ∉ v →
      (∀ i, i < (s ++ "_subset-".data ++ v).length →
        ("_subset-".data).isPrefixOf ((s ++ "_subset-".data ++ v).drop i) = true →
        i = s.length) →
      _get_filename_root fname hp = s ++ "_subset-".data ++ v →
      get_label_value_from_filename fname (.known .BUNDLE) hp = .ok none) ∧
    (∀ (s v fname : List Char) (hp : Bool), '_' ∉ v →
      (∀ i, i < (s ++ "_part-".data ++ v).length →
        ("_part-".data).isPrefixOf ((s ++ "_part-".data ++ v).drop i) = true →
        i = s.length) →
      _get_filename_root fname hp = s ++ "_part-".data ++ v →
      get_label_value_from_filename fname (.known .ENDPOINT) hp = .ok none) ∧
    (∀ (s v fname : List Char) (hp : Bool), '_' ∉ v →
      (∀ i, i < (s ++ "_hemi-".data ++ v).length →
        ("_hemi-".data).isPrefixOf ((s ++ "_hemi-".data ++ v).drop i) = true →
        i = s.length) →
      _get_filename_root fname hp = s ++ "_hemi-".data ++ v →
      get_label_value_from_filename fname (.known .HEMISPHERE) hp = .ok none) := by
  refine ⟨?_, ?_, ?_⟩
  · intro s v fname hp hv hun hroot
    show Except.ok (reSearch bundleMatchAt (_get_filename_root fname hp)) = .ok none
    rw [hroot]
    exact congrArg Except.ok
      ((reSearch_eq_none_iff _ _).mpr (bundleMatchAt_end_none hv hun))
  · intro s v fname hp hv hun hroot
    show Except.ok (reSearch endpointMatchAt (_get_filename_root fname hp)) = .ok none
    rw [hroot]
    exact congrArg Except.ok
      ((reSearch_eq_none_iff _ _).mpr (endpointMatchAt_end_none hv hun))
  · intro s v fname hp hv hun hroot
    show Except.ok (reSearch hemisphereMatchAt (_get_filename_root fname hp)) = .ok none
    rw [hroot]
    exact congrArg Except.ok
      ((reSearch_eq_none_iff _ _).mpr (hemisphereMatchAt_end_none hv hun))

/-- C5 witness: the amended statement evaluated on roots that end with a
unique bundle, endpoint and hemisphere token respectively. -/
theorem trailing_token_never_matched_witness :
    get_label_value_from_filename "x_subset-CC".data (.known .BUNDLE) false = .ok none ∧
      get_label_value_from_filename "x_part-head".data (.known .ENDPOINT) false = .ok none ∧
      get_label_value_from_filename "x_hemi-L".data (.known .HEMISPHERE) false = .ok none :=
  ⟨trailing_token_never_matched.1 "x".data "CC".data "x_subset-CC".data false
      (by decide) (by decide) (by decide),
    trailing_token_never_matched.2.1 "x".data "head".data "x_part-head".data false
      (by decide) (by decide) (by decide),
    trailing_token_never_matched.2.2 "x".data "L".data "x_hemi-L".data false
      (by decide) (by decide) (by decide)⟩

/-! Longest-common-substring miner (C7). -/

theorem is_subseq_iff (ps seq : List Char) : is_subseq ps seq = true ↔ ps <:+: seq := by
  unfold is_subseq
  by_cases hlen : seq.length < ps.length
  · rw [if_pos hlen]
    constructor
    · intro h
      exact absurd h (by simp)
    · intro hinf
      exact absurd hinf.length_le (by omega)
  · rw [if_neg hlen]
    push_neg at hlen
    rw [List.any_eq_true]
    constructor
    · rintro ⟨i, _, hslice⟩
      rw [beq_iff_eq] at hslice
      refine ⟨seq.take i, seq.drop (i + ps.length), ?_⟩
      have h2 : List.drop i seq = ps ++ List.drop (i + ps.length) seq := by
        conv_lhs => rw [← List.take_append_drop ps.length (seq.drop i)]
        rw [hslice, List.drop_drop]
      conv_rhs => rw [← List.take_append_drop i seq]
      rw [h2, List.append_assoc]
    · rintro ⟨u, w, huw⟩
      refine ⟨u.length, ?_, ?_⟩
      · rw [List.mem_range]
        have := congrArg List.length huw
        simp only [List.length_append] at this
        omega
      · rw [beq_iff_eq]
        have hdrop : seq.drop u.length = ps ++ w := by
          rw [← huw, List.append_assoc, List.drop_left]
        rw [hdrop, List.take_left]

theorem is_subseq_of_any_iff (find : List Char) (data : List (List Char))
    (hd : data ≠ []) : is_subseq_of_any find data = true ↔ commonSub data find := by
  unfold is_subseq_of_any
  rw [if_neg ?_]
  · rw [List.all_eq_true]
    unfold commonSub
    constructor
    · intro h d hdm
      exact (is_subseq_iff find d).mp (h d hdm)
    · intro h d hdm
      exact (is_subseq_iff find d).mpr (h d hdm)
  · rintro ⟨hc, -⟩
    exact hd (List.length_eq_zero.mp (by omega))

theorem length_slice {d0 : List Char} {i j : Nat} (h : i + j ≤ d0.length) :
    ((d0.drop i).take j).length = j := by
  rw [List.length_take, List.length_drop]
  exact min_eq_left (by omega)

theorem infix_eq_slice {x d0 : List Char} (h : x <:+: d0) :
    ∃ i, i + x.length ≤ d0.length ∧ x = (d0.drop i).take x.length := by
  obtain ⟨u, w, huw⟩ := h
  refine ⟨u.length, ?_, ?_⟩
  · have := congrArg List.length huw
    simp only [List.length_append] at this
    omega
  · have hdrop : d0.drop u.length = x ++ w := by
      rw [← huw, List.append_assoc, List.drop_left]
    rw [hdrop, List.take_left]

theorem foldl_range_inv {α : Type} (f : α → Nat → α) (P : Nat → α → Prop) (n : Nat)
    (init : α) (h0 : P 0 init)
    (hstep : ∀ k a, k < n → P k a → P (k + 1) (f a k)) :
    P n ((List.range n).foldl f init) := by
  induction n with
  | zero => simpa using h0
  | succ m ih =>
    rw [List.range_succ, List.foldl_append]
    exact hstep m _ (Nat.lt_succ_self m)
      (ih (fun k a hk ha => hstep k a (Nat.lt_succ_of_lt hk) ha))

theorem lcs_inner_step (d0 : List Char) (rest : List (List Char)) (i jk : Nat)
    (s : List Char) (hi : i < d0.length) (hjk : jk < d0.length - i + 1)
    (h1 : commonSub (d0 :: rest) s) (h2 : lcsMax d0 rest i s)
    (h3 : lcsMaxAt d0 rest i jk s) (h4 : lcsFirstAt d0 rest s) :
    commonSub (d0 :: rest) (lcsStep (d0 :: rest) d0 i s jk) ∧
      lcsMax d0 rest i (lcsStep (d0 :: rest) d0 i s jk) ∧
      lcsMaxAt d0 rest i (jk + 1) (lcsStep (d0 :: rest) d0 i s jk) ∧
      lcsFirstAt d0 rest (lcsStep (d0 :: rest) d0 i s jk) := by
  have hij : i + jk ≤ d0.length := by omega
  unfold lcsStep
  by_cases hcond : s.length < jk ∧
      is_subseq_of_any ((d0.drop i).take jk) (d0 :: rest) = true
  · rw [if_pos hcond]
    have hcomnew : commonSub (d0 :: rest) ((d0.drop i).take jk) :=
      (is_subseq_of_any_iff _ _ (List.cons_ne_nil _ _)).mp hcond.2
    have hlennew : ((d0.drop i).take jk).length = jk := length_slice hij
    refine ⟨hcomnew, ?_, ?_, ?_⟩
    · intro i' j hi' hij' hcom'
      have := h2 i' j hi' hij' hcom'
      rw [hlennew]
      omega
    · intro j hj hij' hcom'
      rw [hlennew]
      by_cases hje : j = jk
      · omega
      · have := h3 j (by omega) hij' hcom'
        omega
    · refine ⟨i, ?_, ?_, ?_⟩
      · rw [hlennew]
        omega
      · rw [hlennew]
      · intro i' hi'
        rw [hlennew]
        rintro ⟨hle', hcom'⟩
        have := h2 i' jk hi' hle' hcom'
        omega
  · rw [if_neg hcond]
    refine ⟨h1, h2, ?_, h4⟩
    intro j hj hij' hcom'
    by_cases hje : j = jk
    · subst hje
      have hb : is_subseq_of_any ((d0.drop i).take j) (d0 :: rest) = true :=
        (is_subseq_of_any_iff _ _ (List.cons_ne_nil _ _)).mpr hcom'
      by_contra hgt
      exact hcond ⟨by omega, hb⟩
    · exact h3 j (by omega) hij' hcom'

theorem lcs_outer_step (d0 : List Char) (rest : List (List Char)) (i : Nat)
    (s : List Char) (hi : i < d0.length)
    (h1 : commonSub (d0 :: rest) s) (h2 : lcsMax d0 rest i s)
    (h4 : lcsFirstAt d0 rest s) :
    commonSub (d0 :: rest)
        ((List.range (d0.length - i + 1)).foldl (lcsStep (d0 :: rest) d0 i) s) ∧
      lcsMax d0 rest (i + 1)
        ((List.range (d0.length - i + 1)).foldl (lcsStep (d0 :: rest) d0 i) s) ∧
      lcsFirstAt d0 rest
        ((List.range (d0.length - i + 1)).foldl (lcsStep (d0 :: rest) d0 i) s) := by
  have key := foldl_range_inv (lcsStep (d0 :: rest) d0 i)
    (fun jk t => commonSub (d0 :: rest) t ∧ lcsMax d0 rest i t ∧
      lcsMaxAt d0 rest i jk t ∧ lcsFirstAt d0 rest t)
    (d0.length - i + 1) s
    ⟨h1, h2, fun j hj => absurd hj (Nat.not_lt_zero j), h4⟩
    (fun k a hk ha => lcs_inner_step d0 rest i k a hi hk ha.1 ha.2.1 ha.2.2.1 ha.2.2.2)
  obtain ⟨k1, k2, k3, k4⟩ := key
  refine ⟨k1, ?_, k4⟩
  intro i' j hi' hij' hcom'
  by_cases hie : i' = i
  · subst hie
    exact k3 j (by omega) hij' hcom'
  · exact k2 i' j (by omega) hij' hcom'

theorem lcs_unfold {d0 : List Char} {rest : List (List Char)} (hrest : rest ≠ [])
    (hd0 : d0 ≠ []) :
    get_longest_common_subseq (d0 :: rest) =
      (List.range d0.length).foldl
        (fun substr i => (List.range (d0.length - i + 1)).foldl
          (lcsStep (d0 :: rest) d0 i) substr) [] := by
  unfold get_longest_common_subseq
  rw [if_pos ?_]
  · rfl
  · constructor
    · simp only [List.length_cons]
      have := List.length_pos.mpr hrest
      omega
    · simpa using List.length_pos.mpr hd0

theorem lcs_main (d0 : List Char) (rest : List (List Char)) (hrest : rest ≠ [])
    (hd0 : d0 ≠ []) :
    commonSub (d0 :: rest) (get_longest_common_subseq (d0 :: rest)) ∧
      (∀ x, commonSub (d0 :: rest) x →
        x.length ≤ (get_longest_common_subseq (d0 :: rest)).length) ∧
      lcsFirstAt d0 rest (get_longest_common_subseq (d0 :: rest)) := by
  rw [lcs_unfold hrest hd0]
  have key := foldl_range_inv
    (fun substr i => (List.range (d0.length - i + 1)).foldl
      (lcsStep (d0 :: rest) d0 i) substr)
    (fun k t => commonSub (d0 :: rest) t ∧ lcsMax d0 rest k t ∧ lcsFirstAt d0 rest t)
    d0.length []
    ⟨fun d _ => List.nil_infix,
      fun i j hi => absurd hi (Nat.not_lt_zero i),
      ⟨0, by simp, rfl, fun i hi => absurd hi (Nat.not_lt_zero i)⟩⟩
    (fun k a hk ha => lcs_outer_step d0 rest k a hk ha.1 ha.2.1 ha.2.2)
  obtain ⟨c1, c2, c3⟩ := key
  refine ⟨c1, ?_, c3⟩
  intro x hx
  rcases Nat.eq_zero_or_pos x.length with hx0 | hxpos
  · omega
  · have hxd0 : x <:+: d0 := hx d0 (List.mem_cons_self _ _)
    obtain ⟨i, hile, hieq⟩ := infix_eq_slice hxd0
    exact c2 i x.length (by omega) hile (hieq ▸ hx)

theorem lcs_degenerate (data : List (List Char))
    (h : data.length < 2 ∨ (data.headD []).length = 0) :
    get_longest_common_subseq data = [] := by
  unfold get_longest_common_subseq
  rw [if_neg ?_]
  rintro ⟨h1, h2⟩
  rcases h with h | h <;> omega

/-- C7: on a collection with at least two elements and a non-empty first
element, `get_longest_common_subseq` returns a contiguous substring of every
element (hence of the first), no common substring is longer, and the result
is the slice at the smallest start offset of the first element realizing its
length as a common substring; on a collection with fewer than two elements or
an empty first element the result is empty. -/
theorem longest_common_subseq_spec :
    (∀ (d0 : List Char) (rest : List (List Char)), d0 ≠ [] → rest ≠ [] →
      commonSub (d0 :: rest) (get_longest_common_subseq (d0 :: rest)) ∧
      (∀ x, commonSub (d0 :: rest) x →
        x.length ≤ (get_longest_common_subseq (d0 :: rest)).length) ∧
      lcsFirstAt d0 rest (get_longest_common_subseq (d0 :: rest))) ∧
    (∀ data : List (List Char), data.length < 2 ∨ (data.headD []).length = 0 →
      get_longest_common_subseq data = []) :=
  ⟨fun d0 rest hd0 hrest => lcs_main d0 rest hrest hd0, lcs_degenerate⟩

/-- C7 witness: the specification applied to the two-element collection
consisting of `ab` and `b` (whose longest common substring is `b`), and the
degenerate-input clause applied to a one-element collection. -/
theorem longest_common_subseq_spec_witness :
    ("ab".data ≠ ([] : List Char)) ∧ (["b".data] ≠ ([] : List (List Char))) ∧
      commonSub ["ab".data, "b".data] (get_longest_common_subseq ["ab".data, "b".data]) ∧
      lcsFirstAt "ab".data ["b".data] (get_longest_common_subseq ["ab".data, "b".data]) ∧
      get_longest_common_subseq ["a".data] = [] :=
  ⟨by decide, by decide,
    (longest_common_subseq_spec.1 "ab".data ["b".data] (by decide) (by decide)).1,
    (longest_common_subseq_spec.1 "ab".data ["b".data] (by decide) (by decide)).2.2,
    longest_common_subseq_spec.2 ["a".data] (Or.inl (by decide))⟩

end Tractodata
